import Mathlib

/-!
Shallow embedding of the pichu chess engine (src/pichu.py).

The Python program keeps one global mutable 8×8 board (a list of lists of
one-character strings) and mutates it in place via Move.make / Move.unmake
during an alpha-beta search.  Here the board is an explicit value of type
`Board` (a total function from coordinates to cell characters) that is
threaded through every function which, in the source, touches the global
`board`.  Functions that only read the board take it as an argument;
functions that may write it (`Move.make`, `Move.unmake`, `alphabeta`)
return the updated board.  The globals `player_color` / `opponent_color`
become an explicit parameter `pc`.

Numeric values: every weight and bonus in the source is an IEEE double
that is an exact multiple of 1/4 with small magnitude, so all arithmetic
performed by the program is exact; the embedding uses `ℚ`.  The values
`-float('inf')` / `+float('inf')` used by the search are represented by a
three-case type `XVal`.
-/

/-- A board cell coordinate pair is `(row, column)`; a board maps
coordinates to the cell character (`'.'` for empty). Cells outside
`[0,8)×[0,8)` are never read or written by the embedded code. -/
def Board : Type := Nat → Nat → Char

/-- Writing one cell of the board: `board[r][c] = v`. -/
def bset (b : Board) (r c : Nat) (v : Char) : Board :=
  fun i j => if i = r ∧ j = c then v else b i j

/-- `white_pieces = ['P', 'R', 'B', 'Q', 'K', 'N']` (pichu.py line 19). -/
def white_pieces : List Char := ['P', 'R', 'B', 'Q', 'K', 'N']

/-- `black_pieces = ['p', 'r', 'b', 'q', 'k', 'n']` (line 20). -/
def black_pieces : List Char := ['p', 'r', 'b', 'q', 'k', 'n']

/-- `single_move_pieces = ['N', 'n', 'K', 'k']` (line 21). -/
def single_move_pieces : List Char := ['N', 'n', 'K', 'k']

/-- `opponent_color = 'b' if player_color == 'w' else 'w'` (line 386). -/
def opponent_color (pc : Char) : Char := if pc = 'w' then 'b' else 'w'

/-- One touched cell of a `Move`: the Python `Move` keeps two parallel
dicts over the same keys, `changes` (the new cell value) and
`undo_changes` (the cell value recorded at move-construction time);
an entry bundles the key with both values. -/
structure MoveChange where
  key : Nat × Nat
  piece : Char
  undo : Char
deriving DecidableEq, Repr

/-- A `Move` (pichu.py lines 40–55): a sparse reversible set of cell
writes.  Entry order is dict insertion order. -/
structure Move where
  changes : List MoveChange
deriving DecidableEq, Repr

/-- `Move.add_change(r, c, piece)` (lines 53–55): records
`undo_changes[r, c] = board[r][c]` (read from the board at construction
time) and `changes[r, c] = piece`. -/
def Move.add_change (m : Move) (b : Board) (r c : Nat) (piece : Char) : Move :=
  Move.mk (m.changes ++ [MoveChange.mk (r, c) piece (b r c)])

/-- `Move.make` (lines 49–51): write every `changes` value into the board. -/
def Move.make (m : Move) (b : Board) : Board :=
  m.changes.foldl (fun bd e => bset bd e.key.1 e.key.2 e.piece) b

/-- `Move.unmake` (lines 45–47): write every `undo_changes` value back. -/
def Move.unmake (m : Move) (b : Board) : Board :=
  m.changes.foldl (fun bd e => bset bd e.key.1 e.key.2 e.undo) b

/-- Piece weights (lines 237–238): exact IEEE doubles, embedded in `ℚ`.
In Python an absent key makes `pieces_wgt.get`/`[]` fail at runtime;
that case is unreachable for well-formed boards and is mapped to `0`. -/
def pieces_wgt (p : Char) : ℚ :=
  if p = 'P' then 1.0 else if p = 'B' then 3.5 else if p = 'N' then 3.5
  else if p = 'R' then 5.25 else if p = 'Q' then 10.0 else if p = 'K' then 200.0
  else if p = 'p' then -1.0 else if p = 'b' then -3.5 else if p = 'n' then -3.5
  else if p = 'r' then -5.25 else if p = 'q' then -10.0 else if p = 'k' then -200.0
  else 0

/-- `wp_moves` (lines 95–124): white pawn moves from `(r, c)`.
Diagonal captures are inserted at the front (`moves.insert(0, move)`),
quiet pushes are appended.  A move reaching row 7 promotes to `'Q'`. -/
def wp_moves (b : Board) (moves : List Move) (r c : Nat) : List Move :=
  let r1 := r + 1
  if r1 < 8 then
    -- killer moves take priority
    let moves :=
      if c + 1 < 8 ∧ b r1 (c + 1) ∈ black_pieces then
        (((Move.mk []).add_change b r1 (c + 1) (if r1 = 7 then 'Q' else 'P')).add_change b r c '.') :: moves
      else moves
    -- killer moves take priority
    let moves :=
      if 0 < c ∧ b r1 (c - 1) ∈ black_pieces then
        (((Move.mk []).add_change b r1 (c - 1) (if r1 = 7 then 'Q' else 'P')).add_change b r c '.') :: moves
      else moves
    let moves :=
      if b r1 c = '.' then
        moves ++ [((Move.mk []).add_change b r1 c (if r1 = 7 then 'Q' else 'P')).add_change b r c '.']
      else moves
    -- first move of the game
    if r = 1 ∧ b 2 c = '.' ∧ b 3 c = '.' then
      moves ++ [((Move.mk []).add_change b (r + 2) c 'P').add_change b r c '.']
    else moves
  else moves

/-- `bp_moves` (lines 127–156): black pawn moves, mirror of `wp_moves`;
promotion to `'q'` on row 0. -/
def bp_moves (b : Board) (moves : List Move) (r c : Nat) : List Move :=
  if 0 < r then
    let r1 := r - 1
    -- killer moves take priority
    let moves :=
      if c + 1 < 8 ∧ b r1 (c + 1) ∈ white_pieces then
        (((Move.mk []).add_change b r1 (c + 1) (if r1 = 0 then 'q' else 'p')).add_change b r c '.') :: moves
      else moves
    -- killer moves take priority
    let moves :=
      if 0 < c ∧ b r1 (c - 1) ∈ white_pieces then
        (((Move.mk []).add_change b r1 (c - 1) (if r1 = 0 then 'q' else 'p')).add_change b r c '.') :: moves
      else moves
    let moves :=
      if b r1 c = '.' then
        moves ++ [((Move.mk []).add_change b r1 c (if r1 = 0 then 'q' else 'p')).add_change b r c '.']
      else moves
    -- first move of the game
    if r = 6 ∧ b 5 c = '.' ∧ b 4 c = '.' then
      moves ++ [((Move.mk []).add_change b (r - 2) c 'p').add_change b r c '.']
    else moves
  else moves

/-- `add_move_in_dir` (lines 191–223): walk from `(r, c)` in direction
`(dr, dc)` starting at the given depth; stop when off-board or blocked
by an own piece; on a capture, front-insert when the captured piece
outweighs the mover, else append, and stop; on an empty cell append a
quiet move and keep sliding unless the mover is a single-move piece.
The extra `fuel` argument only bounds the recursion; the walk always
leaves the board within 8 steps, so the `fuel = 0` equation is
unreachable from the call sites below (which pass fuel 8 at depth 1). -/
def add_move_in_dir (b : Board) :
    Nat → List Move → Char → Nat → Nat → Int → Int → Nat → List Move
  | 0, moves, _, _, _, _, _, _ => moves
  | fuel + 1, moves, color, r, c, dr, dc, depth =>
    let r1 : Int := (r : Int) + (depth : Int) * dr
    let c1 : Int := (c : Int) + (depth : Int) * dc
    if 0 ≤ r1 ∧ r1 < 8 ∧ 0 ≤ c1 ∧ c1 < 8 then
      -- player's own piece is blocking the move
      if (b r1.toNat c1.toNat ∈ white_pieces ∧ color = 'w') ∨
         (b r1.toNat c1.toNat ∈ black_pieces ∧ color = 'b') then moves
      -- attack opponent's piece
      else if (b r1.toNat c1.toNat ∈ black_pieces ∧ color = 'w') ∨
              (b r1.toNat c1.toNat ∈ white_pieces ∧ color = 'b') then
        let move := ((Move.mk []).add_change b r1.toNat c1.toNat (b r c)).add_change b r c '.'
        if |pieces_wgt (b r1.toNat c1.toNat)| > |pieces_wgt (b r c)| then
          -- kill moves first
          move :: moves
        else moves ++ [move]
      -- move to empty tile r1, c1
      else if b r1.toNat c1.toNat = '.' then
        let move := ((Move.mk []).add_change b r1.toNat c1.toNat (b r c)).add_change b r c '.'
        let moves := moves ++ [move]
        if b r c ∈ single_move_pieces then moves
        else add_move_in_dir b fuel moves color r c dr dc (depth + 1)
      else moves
    else moves

/-- `r_moves` (lines 159–163): rook slides in the 4 orthogonal directions. -/
def r_moves (b : Board) (moves : List Move) (color : Char) (r c : Nat) : List Move :=
  let moves := add_move_in_dir b 8 moves color r c 1 0 1
  let moves := add_move_in_dir b 8 moves color r c (-1) 0 1
  let moves := add_move_in_dir b 8 moves color r c 0 1 1
  add_move_in_dir b 8 moves color r c 0 (-1) 1

/-- `b_moves` (lines 166–169): bishop slides in the 4 diagonal directions. -/
def b_moves (b : Board) (moves : List Move) (color : Char) (r c : Nat) : List Move :=
  ([-1, 1] : List Int).foldl (fun ms dr =>
    ([-1, 1] : List Int).foldl (fun ms dc =>
      add_move_in_dir b 8 ms color r c dr dc 1) ms) moves

/-- `q_moves` (lines 172–174): queen = rook directions then bishop directions. -/
def q_moves (b : Board) (moves : List Move) (color : Char) (r c : Nat) : List Move :=
  b_moves b (r_moves b moves color r c) color r c

/-- `n_moves` (lines 177–181): knight offsets, kept when `abs dr + abs dc = 3`. -/
def n_moves (b : Board) (moves : List Move) (color : Char) (r c : Nat) : List Move :=
  ([-2, -1, 1, 2] : List Int).foldl (fun ms dr =>
    ([-2, -1, 1, 2] : List Int).foldl (fun ms dc =>
      if dr.natAbs + dc.natAbs = 3 then add_move_in_dir b 8 ms color r c dr dc 1 else ms) ms) moves

/-- `k_moves` (lines 184–188): king offsets.  The Python guard
`abs(dr) + abs(dc) is 1 or 2` parses as `(… is 1) or 2` and is truthy
for every offset, `(0, 0)` included; the embedding keeps that guard
verbatim as `… = 1 ∨ True`.  The `(0, 0)` call never yields a move
because the king's own square is occupied by an own piece. -/
def k_moves (b : Board) (moves : List Move) (color : Char) (r c : Nat) : List Move :=
  ([-1, 0, 1] : List Int).foldl (fun ms dr =>
    ([-1, 0, 1] : List Int).foldl (fun ms dc =>
      if dr.natAbs + dc.natAbs = 1 ∨ True then add_move_in_dir b 8 ms color r c dr dc 1 else ms) ms) moves

/-- `possible_moves` (lines 58–92): scan every cell in row-major order and
dispatch on the piece found there; an unrecognized color yields `[]`. -/
def possible_moves (b : Board) (color : Char) : List Move :=
  if color = 'w' then
    (List.range 8).foldl (fun moves r =>
      (List.range 8).foldl (fun moves c =>
        if b r c = 'P' then wp_moves b moves r c
        else if b r c = 'R' then r_moves b moves color r c
        else if b r c = 'B' then b_moves b moves color r c
        else if b r c = 'N' then n_moves b moves color r c
        else if b r c = 'Q' then q_moves b moves color r c
        else if b r c = 'K' then k_moves b moves color r c
        else moves) moves) []
  else if color = 'b' then
    (List.range 8).foldl (fun moves r =>
      (List.range 8).foldl (fun moves c =>
        if b r c = 'p' then bp_moves b moves r c
        else if b r c = 'r' then r_moves b moves color r c
        else if b r c = 'b' then b_moves b moves color r c
        else if b r c = 'n' then n_moves b moves color r c
        else if b r c = 'q' then q_moves b moves color r c
        else if b r c = 'k' then k_moves b moves color r c
        else moves) moves) []
  else []

/-- Search values: finite floats plus the `-float('inf')` / `+float('inf')`
sentinels used by `alphabeta`. -/
inductive XVal where
  | ninf : XVal
  | fin : ℚ → XVal
  | pinf : XVal
deriving DecidableEq, Repr

/-- Strict comparison on search values (floating comparison, no NaNs occur). -/
def XVal.lt : XVal → XVal → Bool
  | XVal.ninf, XVal.ninf => false
  | XVal.ninf, _ => true
  | XVal.fin _, XVal.ninf => false
  | XVal.fin a, XVal.fin b2 => decide (a < b2)
  | XVal.fin _, XVal.pinf => true
  | XVal.pinf, _ => false

/-- Non-strict comparison (`beta <= alpha` in the source). -/
def XVal.le : XVal → XVal → Bool
  | XVal.ninf, _ => true
  | XVal.fin _, XVal.ninf => false
  | XVal.fin a, XVal.fin b2 => decide (a ≤ b2)
  | XVal.fin _, XVal.pinf => true
  | XVal.pinf, XVal.pinf => true
  | XVal.pinf, _ => false

/-- Python `max(a, b)`: returns `b` only when it is strictly greater. -/
def XVal.pymax (a b2 : XVal) : XVal := if XVal.lt a b2 then b2 else a

/-- Python `min(a, b)`: returns `b` only when it is strictly smaller. -/
def XVal.pymin (a b2 : XVal) : XVal := if XVal.lt b2 a then b2 else a

/-- `State` (pichu.py lines 24–29): a search-tree node.  `move` is the
`Move` leading into the node (`None` at the root), `val` the cached
score (initially the float `0.0`), `player_turn` the "principal player
to move" flag, `successors` the lazily filled child list. -/
structure State where
  move : Option Move
  val : XVal
  player_turn : Bool
  successors : List State

/-- `state.val = v` assignment. -/
def State.setVal (s : State) (v : XVal) : State :=
  State.mk s.move v s.player_turn s.successors

/-- `State.get_successors` (lines 31–37): when the cached list is empty,
run `possible_moves` for the side to move and append a child node per
move (with the opposite turn flag); return the (possibly just filled)
cached list.  Returns the updated node and the untouched board. -/
def get_successors (pc : Char) (s : State) (b : Board) : List State × State × Board :=
  if s.successors.length = 0 then
    let moves := possible_moves b (if s.player_turn then pc else opponent_color pc)
    let succs := moves.map (fun mv => State.mk (some mv) (XVal.fin 0) (!s.player_turn) [])
    (succs, State.mk s.move s.val s.player_turn succs, b)
  else (s.successors, s, b)

/-- `material_wgt = 10` (line 226). -/
def material_wgt : ℚ := 10

/-- `pawn_structure_wgt = 1` (line 227). -/
def pawn_structure_wgt : ℚ := 1

/-- `mobility_wgt = 5` (line 228). -/
def mobility_wgt : ℚ := 5

/-- `material` (lines 241–248): signed piece-weight sum over the whole
board, negated when the principal player is Black. -/
def material (pc : Char) (b : Board) : ℚ :=
  let white_pts := (List.range 8).foldl (fun pts r =>
    (List.range 8).foldl (fun pts c =>
      if b r c ≠ '.' then pts + pieces_wgt (b r c) else pts) pts) 0
  if pc = 'w' then white_pts else -1 * white_pts

/-- `square_values` (lines 251–256): the central-bonus dict, as an
association list; `key in square_values` becomes a `lookup` that is
`some`. -/
def square_values : List ((Nat × Nat) × ℚ) :=
  [((2, 1), 0.25), ((2, 2), 0.5), ((2, 3), 0.5), ((2, 4), 0.5), ((2, 5), 0.5), ((2, 6), 0.25),
   ((3, 1), 0.25), ((3, 2), 0.5), ((3, 3), 1.0), ((3, 4), 1.0), ((3, 5), 0.5), ((3, 6), 0.25),
   ((4, 1), 0.25), ((4, 2), 0.5), ((4, 3), 1.0), ((4, 4), 1.0), ((4, 5), 0.5), ((4, 6), 0.25),
   ((5, 1), 0.25), ((5, 2), 0.5), ((5, 3), 0.5), ((5, 4), 0.5), ((5, 5), 0.5), ((5, 6), 0.25)]

/-- `mobility` (lines 259–266): expand the node's successors and add the
central bonus of every touched destination whose placed piece is not
`'.'`, `'K'` or `'k'`; negate at non-principal plies.  A successor whose
`move` is `None` would raise in Python; no generated successor has one,
and that dead branch contributes `0` here. -/
def mobility (pc : Char) (s : State) (b : Board) : ℚ × State × Board :=
  let gs := get_successors pc s b
  let m := gs.1.foldl (fun m nxt =>
    match nxt.move with
    | some mv => mv.changes.foldl (fun m e =>
        if e.piece ∉ (['.', 'K', 'k'] : List Char) then
          match square_values.lookup e.key with
          | some v => m + v
          | none => m
        else m) m
    | none => m) 0
  (if gs.2.1.player_turn then m else -1 * m, gs.2.1, gs.2.2)

/-- `pawn_structure` (lines 269–296): at the principal player's plies
only, add 1 for every (pawn, defender) pair where an own pawn one rank
behind on an adjacent file defends an own pawn; `0` otherwise.
The guards mirror `ur in range(0,8) and lc in range(0,8)` etc. -/
def pawn_structure (pc : Char) (s : State) (b : Board) : ℚ :=
  if s.player_turn then
    if pc = 'w' then
      (List.range 8).foldl (fun pts r =>
        (List.range 8).foldl (fun pts c =>
          if b r c = 'P' then
            let pts1 := if 1 ≤ r ∧ r - 1 < 8 ∧ 1 ≤ c ∧ c - 1 < 8 ∧ b (r - 1) (c - 1) = 'P' then pts + 1 else pts
            if 1 ≤ r ∧ r - 1 < 8 ∧ c + 1 < 8 ∧ b (r - 1) (c + 1) = 'P' then pts1 + 1 else pts1
          else pts) pts) 0
    else
      (List.range 8).foldl (fun pts r =>
        (List.range 8).foldl (fun pts c =>
          if b r c = 'p' then
            let pts1 := if r + 1 < 8 ∧ 1 ≤ c ∧ c - 1 < 8 ∧ b (r + 1) (c - 1) = 'p' then pts + 1 else pts
            if r + 1 < 8 ∧ c + 1 < 8 ∧ b (r + 1) (c + 1) = 'p' then pts1 + 1 else pts1
          else pts) pts) 0
  else 0

/-- `evaluate` (lines 231–233): the weighted component sum.  Only the
`mobility` term mutates the node (its successor expansion); the board
comes back untouched. -/
def evaluate (pc : Char) (s : State) (b : Board) : ℚ × State × Board :=
  let mob := mobility pc s b
  (material_wgt * material pc b + pawn_structure_wgt * pawn_structure pc s b
     + mobility_wgt * mob.1, mob.2.1, mob.2.2)

/-- `is_game_over` (lines 299–306): scan the incoming move's undo map for
a king value that the move replaced by an opposing piece; the root
(`move is None`) is never terminal. -/
def is_game_over (s : State) : Bool :=
  match s.move with
  | none => false
  | some m => m.changes.any (fun e =>
      (e.undo == 'K' && black_pieces.contains e.piece) ||
      (e.undo == 'k' && white_pieces.contains e.piece))

/-- The shared exit of `alphabeta` (lines 310–312):
`state.val = evaluate(state); return state.val`. -/
def terminal_eval (pc : Char) (s : State) (b : Board) : Option (XVal × State × Board) :=
  let ev := evaluate pc s b
  some (XVal.fin ev.1, ev.2.1.setVal (XVal.fin ev.1), ev.2.2)

/-- One iteration of the maximizing `for` loop of `alphabeta`
(lines 315–323), over an accumulator carrying `(state.val, alpha, the
updated children seen so far, the board, a broke-out flag)`; `rec` is
the recursive `alphabeta pc (depth - 1)` call.  After a `break` the
remaining children pass through unchanged.  A successor whose `move` is
`None` would raise in Python (`None.make()`); the embedding returns
`none` there. -/
def ab_step_max (rec : State → XVal → XVal → Board → Option (XVal × State × Board))
    (beta : XVal) (acc : Option (XVal × XVal × List State × Board × Bool)) (ns : State) :
    Option (XVal × XVal × List State × Board × Bool) :=
  match acc with
  | none => none
  | some (val, a, done, bd, stop) =>
    if stop then some (val, a, done ++ [ns], bd, stop)
    else match ns.move with
      | none => none
      | some mv =>
        match rec ns a beta (mv.make bd) with
        | none => none
        | some (v, ns1, b2) =>
          let val1 := XVal.pymax val v
          let b3 := mv.unmake b2
          let a1 := XVal.pymax a val1
          some (val1, a1, done ++ [ns1], b3, XVal.le beta a1)

/-- One iteration of the minimizing loop (lines 326–333), mirror of
`ab_step_max` with `beta` the running bound and `alpha` fixed. -/
def ab_step_min (rec : State → XVal → XVal → Board → Option (XVal × State × Board))
    (alpha : XVal) (acc : Option (XVal × XVal × List State × Board × Bool)) (ns : State) :
    Option (XVal × XVal × List State × Board × Bool) :=
  match acc with
  | none => none
  | some (val, bt, done, bd, stop) =>
    if stop then some (val, bt, done ++ [ns], bd, stop)
    else match ns.move with
      | none => none
      | some mv =>
        match rec ns alpha bt (mv.make bd) with
        | none => none
        | some (v, ns1, b2) =>
          let val1 := XVal.pymin val v
          let b3 := mv.unmake b2
          let bt1 := XVal.pymin bt val1
          some (val1, bt1, done ++ [ns1], b3, XVal.le bt1 alpha)

/-- `alphabeta` (lines 309–334): exit to `terminal_eval` at depth 0 or at
a terminal node, otherwise run the max/min loop over the (lazily
expanded) successors and return the loop's value, the updated node and
the final board. -/
def alphabeta (pc : Char) : Nat → State → XVal → XVal → Board → Option (XVal × State × Board)
  | 0, s, _, _, b => terminal_eval pc s b
  | d + 1, s, alpha, beta, b =>
    if is_game_over s then terminal_eval pc s b
    else
      let gs := get_successors pc s b
      if gs.2.1.player_turn then
        match gs.1.foldl (ab_step_max (alphabeta pc d) beta)
            (some (XVal.ninf, alpha, ([] : List State), gs.2.2, false)) with
        | none => none
        | some (val, _, done, bd, _) =>
          some (val, State.mk gs.2.1.move val gs.2.1.player_turn done, bd)
      else
        match gs.1.foldl (ab_step_min (alphabeta pc d) alpha)
            (some (XVal.pinf, beta, ([] : List State), gs.2.2, false)) with
        | none => none
        | some (val, _, done, bd, _) =>
          some (val, State.mk gs.2.1.move val gs.2.1.player_turn done, bd)

/-- A move "fits" a board when every recorded undo value is the board's
current content at that key — the situation `Move.add_change` creates
when the move is built against that very board. -/
def MoveFits (m : Move) (b : Board) : Prop :=
  ∀ e ∈ m.changes, e.undo = b e.key.1 e.key.2

/-- Cells no entry of `l` touches are unchanged by the write fold. -/
lemma foldl_bset_untouched (g : MoveChange → Char) (l : List MoveChange) (b : Board)
    (i j : Nat) (h : ∀ e ∈ l, e.key ≠ (i, j)) :
    (l.foldl (fun bd e => bset bd e.key.1 e.key.2 (g e)) b) i j = b i j := by
  induction l generalizing b with
  | nil => rfl
  | cons e t ih =>
    obtain ⟨⟨k1, k2⟩, pe, u⟩ := e
    simp only [List.foldl_cons]
    rw [ih _ (fun e' he' => h e' (List.mem_cons_of_mem _ he'))]
    have hk := h ⟨(k1, k2), pe, u⟩ (List.mem_cons_self _ _)
    simp only [bset]
    rw [if_neg]
    rintro ⟨rfl, rfl⟩
    exact hk rfl

/-- Folding the undo writes of `l` over any board that agrees with `b`
off the touched keys yields `b` again, provided every undo value is
`b`'s content at its key. -/
lemma foldl_bset_restore (l : List MoveChange) (b : Board) :
    ∀ X : Board, (∀ e ∈ l, e.undo = b e.key.1 e.key.2) →
    (∀ i j, (∀ e ∈ l, e.key ≠ (i, j)) → X i j = b i j) →
    l.foldl (fun bd e => bset bd e.key.1 e.key.2 e.undo) X = b := by
  induction l with
  | nil =>
    intro X _ hX
    funext i j
    exact hX i j (by simp)
  | cons e t ih =>
    intro X hfit hX
    obtain ⟨⟨k1, k2⟩, pe, u⟩ := e
    simp only [List.foldl_cons]
    apply ih
    · intro e' he'
      exact hfit e' (List.mem_cons_of_mem _ he')
    · intro i j hk
      simp only [bset]
      by_cases hij : i = k1 ∧ j = k2
      · rw [if_pos hij]
        have hu := hfit ⟨(k1, k2), pe, u⟩ (List.mem_cons_self _ _)
        simp only at hu
        rw [hu, hij.1, hij.2]
      · rw [if_neg hij]
        apply hX
        intro e' he'
        rcases List.mem_cons.mp he' with he' | he'
        · rw [he']
          rintro h'
          apply hij
          have : (k1, k2) = (i, j) := h'
          exact ⟨(Prod.mk.injEq _ _ _ _ ▸ this).1.symm, (Prod.mk.injEq _ _ _ _ ▸ this).2.symm⟩
        · exact hk e' he'

/-- Apply/undo inverse law at the `Move` level: a move built against `b`
restores `b` exactly. -/
lemma Move.unmake_make (m : Move) (b : Board) (h : MoveFits m b) :
    m.unmake (m.make b) = b :=
  foldl_bset_restore m.changes b (m.make b) h
    (fun i j hk => foldl_bset_untouched (fun e => e.piece) m.changes b i j hk)

/-- The shape every move built by the generators has: two entries, a
destination written with some piece and the origin cleared, both
in-bounds, with the undo values read from `b`. -/
def GenMove (b : Board) (m : Move) : Prop :=
  ∃ r1 c1 p r c, r1 < 8 ∧ c1 < 8 ∧ r < 8 ∧ c < 8 ∧
    m.changes = [MoveChange.mk (r1, c1) p (b r1 c1), MoveChange.mk (r, c) '.' (b r c)]

lemma GenMove.fits {b : Board} {m : Move} (h : GenMove b m) : MoveFits m b := by
  obtain ⟨r1, c1, p, r, c, _, _, _, _, hch⟩ := h
  intro e he
  rw [hch] at he
  simp only [List.mem_cons, List.not_mem_nil, or_false] at he
  rcases he with rfl | rfl <;> rfl

lemma GenMove.bounds {b : Board} {m : Move} (h : GenMove b m) :
    ∀ e ∈ m.changes, e.key.1 < 8 ∧ e.key.2 < 8 := by
  obtain ⟨r1, c1, p, r, c, h1, h2, h3, h4, hch⟩ := h
  intro e he
  rw [hch] at he
  simp only [List.mem_cons, List.not_mem_nil, or_false] at he
  rcases he with rfl | rfl
  · exact ⟨h1, h2⟩
  · exact ⟨h3, h4⟩

/-- The two-`add_change` construction every generator uses. -/
lemma mk2_gen {b : Board} {x y r c : Nat} (p : Char)
    (hx : x < 8) (hy : y < 8) (hr : r < 8) (hc : c < 8) :
    GenMove b (((Move.mk []).add_change b x y p).add_change b r c '.') :=
  ⟨x, y, p, r, c, hx, hy, hr, hc, rfl⟩

/-- Generic preservation of a per-move invariant through a fold. -/
lemma foldl_moves_pres {α : Type} {b : Board} (l : List α) (f : List Move → α → List Move)
    (hf : ∀ ms x, x ∈ l → (∀ m ∈ ms, GenMove b m) → ∀ m ∈ f ms x, GenMove b m) :
    ∀ ms, (∀ m ∈ ms, GenMove b m) → ∀ m ∈ l.foldl f ms, GenMove b m := by
  induction l with
  | nil => intro ms h m hm; exact h m hm
  | cons x t ih =>
    intro ms h m hm
    exact ih (fun ms' x' hx' => hf ms' x' (List.mem_cons_of_mem _ hx'))
      (f ms x) (hf ms x (List.mem_cons_self _ _) h) m hm

lemma wp_moves_shape {b : Board} {r c : Nat} (hr : r < 8) (hc : c < 8) :
    ∀ ms, (∀ m ∈ ms, GenMove b m) → ∀ m ∈ wp_moves b ms r c, GenMove b m := by
  intro ms h m hm
  simp only [wp_moves] at hm
  split_ifs at hm <;>
    (try simp only [List.mem_append, List.mem_cons, List.mem_singleton, List.not_mem_nil,
      or_false, false_or] at hm) <;>
    (try casesm* _ ∨ _) <;>
    first
      | (apply h; assumption)
      | (subst_vars; apply mk2_gen <;> omega)

lemma bp_moves_shape {b : Board} {r c : Nat} (hr : r < 8) (hc : c < 8) :
    ∀ ms, (∀ m ∈ ms, GenMove b m) → ∀ m ∈ bp_moves b ms r c, GenMove b m := by
  intro ms h m hm
  simp only [bp_moves] at hm
  split_ifs at hm <;>
    (try simp only [List.mem_append, List.mem_cons, List.mem_singleton, List.not_mem_nil,
      or_false, false_or] at hm) <;>
    (try casesm* _ ∨ _) <;>
    first
      | (apply h; assumption)
      | (subst_vars; apply mk2_gen <;> omega)

lemma add_move_in_dir_shape {b : Board} {color : Char} {dr dc : Int} {r c : Nat}
    (hr : r < 8) (hc : c < 8) :
    ∀ fuel depth ms, (∀ m ∈ ms, GenMove b m) →
      ∀ m ∈ add_move_in_dir b fuel ms color r c dr dc depth, GenMove b m := by
  intro fuel
  induction fuel with
  | zero => intro depth ms h m hm; exact h m hm
  | succ n ih =>
    intro depth ms h m hm
    simp only [add_move_in_dir] at hm
    split_ifs at hm with h1 h2 h3 h4 h5 <;>
      first
        | (exact h m hm)
        | skip
    · -- capture, front insert
      rcases List.mem_cons.mp hm with hm | hm
      · subst hm; apply mk2_gen <;> omega
      · exact h m hm
    · -- capture, appended
      rcases List.mem_append.mp hm with hm | hm
      · exact h m hm
      · rcases List.mem_singleton.mp hm with hm
        subst hm; apply mk2_gen <;> omega
    · -- quiet move, single-move piece
      rcases List.mem_append.mp hm with hm | hm
      · exact h m hm
      · rcases List.mem_singleton.mp hm with hm
        subst hm; apply mk2_gen <;> omega
    · -- quiet move, keep sliding
      refine ih (depth + 1) _ ?_ m hm
      intro m' hm'
      rcases List.mem_append.mp hm' with hm' | hm'
      · exact h m' hm'
      · rcases List.mem_singleton.mp hm' with hm'
        subst hm'; apply mk2_gen <;> omega

lemma r_moves_shape {b : Board} {color : Char} {r c : Nat} (hr : r < 8) (hc : c < 8) :
    ∀ ms, (∀ m ∈ ms, GenMove b m) → ∀ m ∈ r_moves b ms color r c, GenMove b m := by
  intro ms h m hm
  simp only [r_moves] at hm
  exact add_move_in_dir_shape hr hc _ _ _
    (add_move_in_dir_shape hr hc _ _ _
      (add_move_in_dir_shape hr hc _ _ _
        (add_move_in_dir_shape hr hc _ _ _ h) ) ) m hm

lemma b_moves_shape {b : Board} {color : Char} {r c : Nat} (hr : r < 8) (hc : c < 8) :
    ∀ ms, (∀ m ∈ ms, GenMove b m) → ∀ m ∈ b_moves b ms color r c, GenMove b m := by
  intro ms h m hm
  simp only [b_moves] at hm
  refine foldl_moves_pres _ _ ?_ ms h m hm
  intro ms1 dr _ h1 m1 hm1
  refine foldl_moves_pres _ _ ?_ ms1 h1 m1 hm1
  intro ms2 dc _ h2 m2 hm2
  exact add_move_in_dir_shape hr hc _ _ _ h2 m2 hm2

lemma q_moves_shape {b : Board} {color : Char} {r c : Nat} (hr : r < 8) (hc : c < 8) :
    ∀ ms, (∀ m ∈ ms, GenMove b m) → ∀ m ∈ q_moves b ms color r c, GenMove b m := by
  intro ms h m hm
  simp only [q_moves] at hm
  exact b_moves_shape hr hc _ (r_moves_shape hr hc ms h) m hm

lemma n_moves_shape {b : Board} {color : Char} {r c : Nat} (hr : r < 8) (hc : c < 8) :
    ∀ ms, (∀ m ∈ ms, GenMove b m) → ∀ m ∈ n_moves b ms color r c, GenMove b m := by
  intro ms h m hm
  simp only [n_moves] at hm
  refine foldl_moves_pres _ _ ?_ ms h m hm
  intro ms1 dr _ h1 m1 hm1
  refine foldl_moves_pres _ _ ?_ ms1 h1 m1 hm1
  intro ms2 dc _ h2 m2 hm2
  split at hm2
  · exact add_move_in_dir_shape hr hc _ _ _ h2 m2 hm2
  · exact h2 m2 hm2

lemma k_moves_shape {b : Board} {color : Char} {r c : Nat} (hr : r < 8) (hc : c < 8) :
    ∀ ms, (∀ m ∈ ms, GenMove b m) → ∀ m ∈ k_moves b ms color r c, GenMove b m := by
  intro ms h m hm
  simp only [k_moves] at hm
  refine foldl_moves_pres _ _ ?_ ms h m hm
  intro ms1 dr _ h1 m1 hm1
  refine foldl_moves_pres _ _ ?_ ms1 h1 m1 hm1
  intro ms2 dc _ h2 m2 hm2
  split at hm2
  · exact add_move_in_dir_shape hr hc _ _ _ h2 m2 hm2
  · exact h2 m2 hm2

/-- Every move `possible_moves` produces has the generated-move shape. -/
lemma possible_moves_shape (b : Board) (color : Char) :
    ∀ m ∈ possible_moves b color, GenMove b m := by
  intro m hm
  simp only [possible_moves] at hm
  split_ifs at hm
  · refine foldl_moves_pres _ _ ?_ [] (by simp) m hm
    intro ms1 r hr h1 m1 hm1
    have hr8 : r < 8 := List.mem_range.mp hr
    refine foldl_moves_pres _ _ ?_ ms1 h1 m1 hm1
    intro ms2 c hcm h2 m2 hm2
    have hc8 : c < 8 := List.mem_range.mp hcm
    split_ifs at hm2
    · exact wp_moves_shape hr8 hc8 ms2 h2 m2 hm2
    · exact r_moves_shape hr8 hc8 ms2 h2 m2 hm2
    · exact b_moves_shape hr8 hc8 ms2 h2 m2 hm2
    · exact n_moves_shape hr8 hc8 ms2 h2 m2 hm2
    · exact q_moves_shape hr8 hc8 ms2 h2 m2 hm2
    · exact k_moves_shape hr8 hc8 ms2 h2 m2 hm2
    · exact h2 m2 hm2
  · refine foldl_moves_pres _ _ ?_ [] (by simp) m hm
    intro ms1 r hr h1 m1 hm1
    have hr8 : r < 8 := List.mem_range.mp hr
    refine foldl_moves_pres _ _ ?_ ms1 h1 m1 hm1
    intro ms2 c hcm h2 m2 hm2
    have hc8 : c < 8 := List.mem_range.mp hcm
    split_ifs at hm2
    · exact bp_moves_shape hr8 hc8 ms2 h2 m2 hm2
    · exact r_moves_shape hr8 hc8 ms2 h2 m2 hm2
    · exact b_moves_shape hr8 hc8 ms2 h2 m2 hm2
    · exact n_moves_shape hr8 hc8 ms2 h2 m2 hm2
    · exact q_moves_shape hr8 hc8 ms2 h2 m2 hm2
    · exact k_moves_shape hr8 hc8 ms2 h2 m2 hm2
    · exact h2 m2 hm2
  · cases hm

/-- C2: every Move produced by `possible_moves` on a board `b`, made and
then unmade while the board equals `b`, restores every touched cell — the
board is again cell-for-cell (here: extensionally) equal to `b`.  The
statement quantifies over all boards, hence in particular over every
board reachable during search. -/
theorem possible_moves_make_unmake (b : Board) (color : Char) (m : Move)
    (hm : m ∈ possible_moves b color) : m.unmake (m.make b) = b :=
  Move.unmake_make m b (possible_moves_shape b color m hm).fits

/-- The sample board for witnesses: a lone white rook at `(0, 0)`. -/
def bRook : Board := fun r c => if r = 0 ∧ c = 0 then 'R' else '.'

/-- The first move `possible_moves bRook 'w'` generates: rook to `(1, 0)`. -/
def mRook : Move := Move.mk [MoveChange.mk (1, 0) 'R' '.', MoveChange.mk (0, 0) '.' 'R']

set_option maxRecDepth 8000 in
/-- Witness for C2 at a concrete board and move. -/
theorem possible_moves_make_unmake_witness :
    mRook ∈ possible_moves bRook 'w' ∧ mRook.unmake (mRook.make bRook) = bRook :=
  ⟨by decide, possible_moves_make_unmake bRook 'w' mRook (by decide)⟩

/-- C8: every move `possible_moves` generates touches only in-bounds
cells: each recorded (destination or origin) key has row and column in
`[0, 8)`.  In the source the generation routines bounds-check every
candidate cell before reading the board, so this is the design invariant
the moves themselves witness. -/
theorem possible_moves_in_bounds (b : Board) (color : Char) (m : Move)
    (hm : m ∈ possible_moves b color) : ∀ e ∈ m.changes, e.key.1 < 8 ∧ e.key.2 < 8 :=
  (possible_moves_shape b color m hm).bounds

set_option maxRecDepth 8000 in
/-- Witness for C8 at a concrete board, move and entry. -/
theorem possible_moves_in_bounds_witness :
    mRook ∈ possible_moves bRook 'w' ∧
      (MoveChange.mk (1, 0) 'R' '.').key.1 < 8 ∧ (MoveChange.mk (1, 0) 'R' '.').key.2 < 8 :=
  ⟨by decide, possible_moves_in_bounds bRook 'w' mRook (by decide) _ (by decide)⟩

lemma mem_black_not_white {ch : Char} (h : ch ∈ black_pieces) : ch ∉ white_pieces := by
  fin_cases h <;> decide

lemma mem_white_not_black {ch : Char} (h : ch ∈ white_pieces) : ch ∉ black_pieces := by
  fin_cases h <;> decide

/-- The white-pawn right-diagonal capture, when available (always placed
at the front of the move list by `wp_moves`). -/
def wp_cap_right (b : Board) (r c : Nat) : List Move :=
  if c + 1 < 8 ∧ b (r + 1) (c + 1) ∈ black_pieces then
    [((Move.mk []).add_change b (r + 1) (c + 1) (if r + 1 = 7 then 'Q' else 'P')).add_change b r c '.']
  else []

/-- The white-pawn left-diagonal capture, when available. -/
def wp_cap_left (b : Board) (r c : Nat) : List Move :=
  if 0 < c ∧ b (r + 1) (c - 1) ∈ black_pieces then
    [((Move.mk []).add_change b (r + 1) (c - 1) (if r + 1 = 7 then 'Q' else 'P')).add_change b r c '.']
  else []

/-- The white-pawn quiet moves (single push then double push), appended
at the back by `wp_moves`. -/
def wp_quiet (b : Board) (r c : Nat) : List Move :=
  (if b (r + 1) c = '.' then
    [((Move.mk []).add_change b (r + 1) c (if r + 1 = 7 then 'Q' else 'P')).add_change b r c '.']
   else []) ++
  (if r = 1 ∧ b 2 c = '.' ∧ b 3 c = '.' then
    [((Move.mk []).add_change b (r + 2) c 'P').add_change b r c '.']
   else [])

/-- Black-pawn analogue of `wp_cap_right`. -/
def bp_cap_right (b : Board) (r c : Nat) : List Move :=
  if c + 1 < 8 ∧ b (r - 1) (c + 1) ∈ white_pieces then
    [((Move.mk []).add_change b (r - 1) (c + 1) (if r - 1 = 0 then 'q' else 'p')).add_change b r c '.']
  else []

/-- Black-pawn analogue of `wp_cap_left`. -/
def bp_cap_left (b : Board) (r c : Nat) : List Move :=
  if 0 < c ∧ b (r - 1) (c - 1) ∈ white_pieces then
    [((Move.mk []).add_change b (r - 1) (c - 1) (if r - 1 = 0 then 'q' else 'p')).add_change b r c '.']
  else []

/-- Black-pawn quiet moves. -/
def bp_quiet (b : Board) (r c : Nat) : List Move :=
  (if b (r - 1) c = '.' then
    [((Move.mk []).add_change b (r - 1) c (if r - 1 = 0 then 'q' else 'p')).add_change b r c '.']
   else []) ++
  (if r = 6 ∧ b 5 c = '.' ∧ b 4 c = '.' then
    [((Move.mk []).add_change b (r - 2) c 'p').add_change b r c '.']
   else [])

/-- C6: move-ordering of captures.  First conjunct: when the sliding/step
generator `add_move_in_dir` finds an opposing piece on the scanned cell,
it emits exactly one capture move, front-inserted precisely when the
captured piece's absolute weight exceeds the capturing piece's, else
appended at the back.  Second and third conjuncts: a pawn's diagonal
captures are always placed at the front (left capture before right,
both before the incoming list), while its quiet moves are appended at
the back — regardless of any piece values. -/
theorem capture_move_ordering :
    (∀ (b : Board) (ms : List Move) (color : Char) (r c : Nat) (dr dc : Int) (depth fuel : Nat),
      (0 ≤ (r : Int) + (depth : Int) * dr ∧ (r : Int) + (depth : Int) * dr < 8 ∧
       0 ≤ (c : Int) + (depth : Int) * dc ∧ (c : Int) + (depth : Int) * dc < 8) →
      ((b ((r : Int) + (depth : Int) * dr).toNat ((c : Int) + (depth : Int) * dc).toNat ∈ black_pieces ∧ color = 'w') ∨
       (b ((r : Int) + (depth : Int) * dr).toNat ((c : Int) + (depth : Int) * dc).toNat ∈ white_pieces ∧ color = 'b')) →
      add_move_in_dir b (fuel + 1) ms color r c dr dc depth =
        (if |pieces_wgt (b ((r : Int) + (depth : Int) * dr).toNat ((c : Int) + (depth : Int) * dc).toNat)| >
            |pieces_wgt (b r c)| then
          (((Move.mk []).add_change b ((r : Int) + (depth : Int) * dr).toNat
              ((c : Int) + (depth : Int) * dc).toNat (b r c)).add_change b r c '.') :: ms
        else
          ms ++ [((Move.mk []).add_change b ((r : Int) + (depth : Int) * dr).toNat
              ((c : Int) + (depth : Int) * dc).toNat (b r c)).add_change b r c '.'])) ∧
    (∀ (b : Board) (ms : List Move) (r c : Nat), r + 1 < 8 →
      wp_moves b ms r c = wp_cap_left b r c ++ wp_cap_right b r c ++ ms ++ wp_quiet b r c) ∧
    (∀ (b : Board) (ms : List Move) (r c : Nat), 0 < r →
      bp_moves b ms r c = bp_cap_left b r c ++ bp_cap_right b r c ++ ms ++ bp_quiet b r c) := by
  refine ⟨?_, ?_, ?_⟩
  · intro b ms color r c dr dc depth fuel hrange hopp
    simp only [add_move_in_dir]
    rw [if_pos hrange, if_neg, if_pos hopp]
    rintro (⟨hw, hcw⟩ | ⟨hb, hcb⟩)
    · rcases hopp with ⟨hbl, _⟩ | ⟨_, hcb2⟩
      · exact mem_black_not_white hbl hw
      · rw [hcw] at hcb2; exact absurd hcb2 (by decide)
    · rcases hopp with ⟨_, hcw2⟩ | ⟨hwh, _⟩
      · rw [hcb] at hcw2; exact absurd hcw2 (by decide)
      · exact mem_white_not_black hwh hb
  · intro b ms r c hr1
    simp only [wp_moves, wp_cap_left, wp_cap_right, wp_quiet]
    rw [if_pos hr1]
    split_ifs <;> simp [List.append_assoc]
  · intro b ms r c hr0
    simp only [bp_moves, bp_cap_left, bp_cap_right, bp_quiet]
    rw [if_pos hr0]
    split_ifs <;> simp [List.append_assoc]

/-- Board for the C6 witness: white rook at `(2, 2)`, black queen at
`(2, 5)`, black pawn at `(4, 2)`, white pawn at `(4, 4)`, black pawn at
`(5, 5)`. -/
def bCap : Board := fun r c =>
  if r = 2 ∧ c = 2 then 'R'
  else if r = 2 ∧ c = 5 then 'q'
  else if r = 4 ∧ c = 2 then 'p'
  else if r = 4 ∧ c = 4 then 'P'
  else if r = 5 ∧ c = 5 then 'p'
  else '.'

set_option maxRecDepth 8000 in
/-- Witness for C6: the rook capturing the queen (victim outweighs
attacker) is front-inserted; the rook capturing the pawn (victim lighter)
is appended; the white pawn's diagonal capture of the pawn at `(5, 5)`
lands in front of the incoming list. -/
theorem capture_move_ordering_witness :
    (add_move_in_dir bCap 6 [mRook] 'w' 2 2 0 1 3 =
      (((Move.mk []).add_change bCap 2 5 'R').add_change bCap 2 2 '.') :: [mRook]) ∧
    (add_move_in_dir bCap 6 [mRook] 'w' 2 2 1 0 2 =
      [mRook] ++ [((Move.mk []).add_change bCap 4 2 'R').add_change bCap 2 2 '.']) ∧
    (wp_moves bCap [mRook] 4 4 =
      wp_cap_left bCap 4 4 ++ wp_cap_right bCap 4 4 ++ [mRook] ++ wp_quiet bCap 4 4) := by
  refine ⟨?_, ?_, ?_⟩
  · have h := capture_move_ordering.1 bCap [mRook] 'w' 2 2 0 1 3 5 (by decide)
      (Or.inl ⟨by decide, rfl⟩)
    rw [h, if_pos]
    · rfl
    · show |pieces_wgt 'q'| > |pieces_wgt 'R'|
      have e1 : pieces_wgt 'q' = -10 := by (simp [pieces_wgt]; norm_num)
      have e2 : pieces_wgt 'R' = 21/4 := by (simp [pieces_wgt]; norm_num)
      rw [e1, e2, abs_of_nonneg (show (0 : ℚ) ≤ 21/4 by norm_num)]
      norm_num
  · have h := capture_move_ordering.1 bCap [mRook] 'w' 2 2 1 0 2 5 (by decide)
      (Or.inl ⟨by decide, rfl⟩)
    rw [h, if_neg]
    · rfl
    · show ¬ (|pieces_wgt 'p'| > |pieces_wgt 'R'|)
      have e1 : pieces_wgt 'p' = -1 := by (simp [pieces_wgt]; norm_num)
      have e2 : pieces_wgt 'R' = 21/4 := by (simp [pieces_wgt]; norm_num)
      rw [e1, e2, abs_of_nonneg (show (0 : ℚ) ≤ 21/4 by norm_num)]
      norm_num
  · exact capture_move_ordering.2.1 bCap [mRook] 4 4 (by decide)

/-- A board is well formed when every in-range cell carries one of the
recognized symbols (spec §7 assumes this of all inputs). -/
def WellFormedBoard (b : Board) : Prop :=
  ∀ i, i < 8 → ∀ j, j < 8 → (b i j = '.' ∨ b i j ∈ white_pieces ∨ b i j ∈ black_pieces)

/-- What a king generates in one direction: a single step to the target
square, emitted iff the target is on the board and not occupied by an
own piece. -/
def king_step (b : Board) (piece : Char) (own : List Char) (r c : Nat) (d : Int × Int) :
    Option Move :=
  if 0 ≤ (r : Int) + d.1 ∧ (r : Int) + d.1 < 8 ∧ 0 ≤ (c : Int) + d.2 ∧ (c : Int) + d.2 < 8 ∧
      b ((r : Int) + d.1).toNat ((c : Int) + d.2).toNat ∉ own then
    some (((Move.mk []).add_change b ((r : Int) + d.1).toNat ((c : Int) + d.2).toNat piece).add_change b r c '.')
  else none

/-- The 8 proper adjacent offsets, in the iteration order of `k_moves`. -/
def king_offsets : List (Int × Int) :=
  [(-1, -1), (-1, 0), (-1, 1), (0, -1), (0, 1), (1, -1), (1, 0), (1, 1)]

/-- The specified king move list: exactly the single-step moves to the 8
adjacent on-board squares not occupied by an own piece. -/
def king_moves_spec (b : Board) (piece : Char) (own : List Char) (r c : Nat) : List Move :=
  king_offsets.filterMap (king_step b piece own r c)

lemma filterMap_cons_toList {α β : Type} (f : α → Option β) (x : α) (l : List α) :
    List.filterMap f (x :: l) = (f x).toList ++ List.filterMap f l := by
  cases h : f x <;> simp [List.filterMap_cons, h]

lemma abs_wgt_black_not_gt {ch : Char} (h : ch ∈ black_pieces) :
    ¬ (|pieces_wgt ch| > |pieces_wgt 'K'|) := by
  have hK : |pieces_wgt 'K'| = 200 := by
    rw [show pieces_wgt 'K' = 200 by (simp [pieces_wgt]; norm_num)]
    rw [abs_of_nonneg] <;> norm_num
  rw [not_lt, hK, abs_le]
  fin_cases h <;> constructor <;> simp [pieces_wgt] <;> norm_num

lemma abs_wgt_white_not_gt {ch : Char} (h : ch ∈ white_pieces) :
    ¬ (|pieces_wgt ch| > |pieces_wgt 'k'|) := by
  have hK : |pieces_wgt 'k'| = 200 := by
    rw [show pieces_wgt 'k' = -200 by (simp [pieces_wgt]; norm_num)]
    rw [abs_of_nonpos] <;> norm_num
  rw [not_lt, hK, abs_le]
  fin_cases h <;> constructor <;> simp [pieces_wgt] <;> norm_num

lemma add_king_step_w {b : Board} {r c : Nat} (hwf : WellFormedBoard b) (hk : b r c = 'K')
    (ms : List Move) (dr dc : Int) (fuel : Nat) :
    add_move_in_dir b (fuel + 1) ms 'w' r c dr dc 1 =
      ms ++ (king_step b 'K' white_pieces r c (dr, dc)).toList := by
  simp only [add_move_in_dir, king_step, Nat.cast_one, one_mul, Char.reduceEq, and_true,
    and_false, or_false, false_or, true_and, false_and, or_true, true_or]
  by_cases hrange : 0 ≤ (r : Int) + dr ∧ (r : Int) + dr < 8 ∧ 0 ≤ (c : Int) + dc ∧ (c : Int) + dc < 8
  · obtain ⟨h1, h2, h3, h4⟩ := hrange
    rw [if_pos ⟨h1, h2, h3, h4⟩]
    by_cases hmem : b ((r : Int) + dr).toNat ((c : Int) + dc).toNat ∈ white_pieces
    · rw [if_pos hmem, if_neg]
      · simp
      · rintro ⟨_, _, _, _, hnot⟩
        exact hnot hmem
    · have hcell := hwf (((r : Int) + dr).toNat) (by omega) (((c : Int) + dc).toNat) (by omega)
      rw [hk, if_neg hmem]
      rcases hcell with hdot | hw | hb
      · rw [if_neg (fun hmb => absurd (hdot ▸ hmb) (by decide)), if_pos hdot,
          if_pos (show 'K' ∈ single_move_pieces by decide), if_pos ⟨h1, h2, h3, h4, hmem⟩]
        rfl
      · exact absurd hw hmem
      · rw [if_pos hb, if_neg (abs_wgt_black_not_gt hb), if_pos ⟨h1, h2, h3, h4, hmem⟩]
        rfl
  · rw [if_neg hrange, if_neg]
    · simp
    · rintro ⟨h1, h2, h3, h4, _⟩
      exact hrange ⟨h1, h2, h3, h4⟩

lemma add_king_step_b {b : Board} {r c : Nat} (hwf : WellFormedBoard b) (hk : b r c = 'k')
    (ms : List Move) (dr dc : Int) (fuel : Nat) :
    add_move_in_dir b (fuel + 1) ms 'b' r c dr dc 1 =
      ms ++ (king_step b 'k' black_pieces r c (dr, dc)).toList := by
  simp only [add_move_in_dir, king_step, Nat.cast_one, one_mul, Char.reduceEq, and_true,
    and_false, or_false, false_or, true_and, false_and, or_true, true_or]
  by_cases hrange : 0 ≤ (r : Int) + dr ∧ (r : Int) + dr < 8 ∧ 0 ≤ (c : Int) + dc ∧ (c : Int) + dc < 8
  · obtain ⟨h1, h2, h3, h4⟩ := hrange
    rw [if_pos ⟨h1, h2, h3, h4⟩]
    by_cases hmem : b ((r : Int) + dr).toNat ((c : Int) + dc).toNat ∈ black_pieces
    · rw [if_pos hmem, if_neg]
      · simp
      · rintro ⟨_, _, _, _, hnot⟩
        exact hnot hmem
    · have hcell := hwf (((r : Int) + dr).toNat) (by omega) (((c : Int) + dc).toNat) (by omega)
      rw [hk, if_neg hmem]
      rcases hcell with hdot | hw | hb
      · rw [if_neg (fun hmw => absurd (hdot ▸ hmw) (by decide)), if_pos hdot,
          if_pos (show 'k' ∈ single_move_pieces by decide), if_pos ⟨h1, h2, h3, h4, hmem⟩]
        rfl
      · rw [if_pos hw, if_neg (abs_wgt_white_not_gt hw), if_pos ⟨h1, h2, h3, h4, hmem⟩]
        rfl
      · exact absurd hb hmem
  · rw [if_neg hrange, if_neg]
    · simp
    · rintro ⟨h1, h2, h3, h4, _⟩
      exact hrange ⟨h1, h2, h3, h4⟩

lemma king_step_self_w {b : Board} {r c : Nat} (hk : b r c = 'K') :
    king_step b 'K' white_pieces r c (0, 0) = none := by
  simp only [king_step]
  rw [if_neg]
  rintro ⟨h1, h2, h3, h4, hnot⟩
  apply hnot
  rw [show ((r : Int) + 0).toNat = r by omega, show ((c : Int) + 0).toNat = c by omega, hk]
  decide

lemma king_step_self_b {b : Board} {r c : Nat} (hk : b r c = 'k') :
    king_step b 'k' black_pieces r c (0, 0) = none := by
  simp only [king_step]
  rw [if_neg]
  rintro ⟨h1, h2, h3, h4, hnot⟩
  apply hnot
  rw [show ((r : Int) + 0).toNat = r by omega, show ((c : Int) + 0).toNat = c by omega, hk]
  decide

/-- C5: for every well-formed board and either color, the king's
generated moves are exactly `king_moves_spec`: the single-step moves to
the 8 adjacent squares that are on the board and not occupied by an own
piece, appended (in iteration order) after the incoming list.  Since
`king_offsets` omits `(0, 0)` and each spec entry moves exactly one step,
no move to the king's own square and no multi-step king move is ever
generated; the `(0, 0)` offset the Python loop also visits (its guard is
always truthy) is separately shown to produce nothing
(`king_step_self_w`/`king_step_self_b`). -/
theorem king_move_generation (b : Board) (r c : Nat) (ms : List Move)
    (hwf : WellFormedBoard b) :
    (b r c = 'K' → k_moves b ms 'w' r c = ms ++ king_moves_spec b 'K' white_pieces r c) ∧
    (b r c = 'k' → k_moves b ms 'b' r c = ms ++ king_moves_spec b 'k' black_pieces r c) := by
  constructor
  · intro hk
    have hstep := fun (ms : List Move) (dr dc : Int) => add_king_step_w hwf hk ms dr dc 7
    simp only [k_moves, List.foldl_cons, List.foldl_nil, or_true, if_true]
    rw [show (8 : Nat) = 7 + 1 from rfl]
    simp only [hstep]
    rw [king_step_self_w hk]
    simp only [king_moves_spec, king_offsets, filterMap_cons_toList, List.filterMap_nil,
      Option.toList_none, List.append_nil, List.append_assoc, List.nil_append]
  · intro hk
    have hstep := fun (ms : List Move) (dr dc : Int) => add_king_step_b hwf hk ms dr dc 7
    simp only [k_moves, List.foldl_cons, List.foldl_nil, or_true, if_true]
    rw [show (8 : Nat) = 7 + 1 from rfl]
    simp only [hstep]
    rw [king_step_self_b hk]
    simp only [king_moves_spec, king_offsets, filterMap_cons_toList, List.filterMap_nil,
      Option.toList_none, List.append_nil, List.append_assoc, List.nil_append]

/-- Board for the C5 witness: white king at `(0, 0)`, black queen at `(0, 1)`. -/
def bKing : Board := fun r c =>
  if r = 0 ∧ c = 0 then 'K' else if r = 0 ∧ c = 1 then 'q' else '.'

/-- Witness for C5 at a concrete board. -/
theorem king_move_generation_witness :
    WellFormedBoard bKing ∧
      k_moves bKing [] 'w' 0 0 = [] ++ king_moves_spec bKing 'K' white_pieces 0 0 :=
  ⟨by unfold WellFormedBoard; decide,
   (king_move_generation bKing 0 0 [] (by unfold WellFormedBoard; decide)).1 rfl⟩

lemma get_successors_board (pc : Char) (s : State) (b : Board) :
    (get_successors pc s b).2.2 = b := by
  unfold get_successors
  split <;> rfl

lemma get_successors_turn (pc : Char) (s : State) (b : Board) :
    (get_successors pc s b).2.1.player_turn = s.player_turn := by
  unfold get_successors
  split <;> rfl

lemma get_successors_move (pc : Char) (s : State) (b : Board) :
    (get_successors pc s b).2.1.move = s.move := by
  unfold get_successors
  split <;> rfl

lemma get_successors_val (pc : Char) (s : State) (b : Board) :
    (get_successors pc s b).2.1.val = s.val := by
  unfold get_successors
  split <;> rfl

lemma get_successors_succs (pc : Char) (s : State) (b : Board) :
    (get_successors pc s b).2.1.successors = (get_successors pc s b).1 := by
  unfold get_successors
  split <;> rfl

lemma evaluate_board_id (pc : Char) (s : State) (b : Board) :
    (evaluate pc s b).2.2 = b := by
  simp only [evaluate, mobility]
  exact get_successors_board pc s b

/-- C10: `evaluate` never modifies the board.  Its `mobility` component
expands the node's successor list (a node mutation, visible in the
returned `State`), but the whole `evaluate` call chain only reads the
board: the board component of the result is the input board. -/
theorem evaluate_preserves_board (pc : Char) (s : State) (b : Board) :
    (evaluate pc s b).2.2 = b :=
  evaluate_board_id pc s b

/-- The all-empty board. -/
def bEmptyB : Board := fun _ _ => '.'

/-- A board with a single white pawn at `(1, 0)`. -/
def bPawn : Board := fun r c => if r = 1 ∧ c = 0 then 'P' else '.'

/-- A root node: no incoming move, principal player to move, no cached
children. -/
def rootW : State := State.mk none (XVal.fin 0) true []

set_option maxRecDepth 8000 in
/-- C4 counterexample: `get_successors` caches only a non-empty child
list (`if len(self.successors) == 0` re-enters whenever the cache is
empty).  With the white root on an empty board the first call computes
`[]`; after the board changes to `bPawn` a second call on the returned
node recomputes from the new board and yields two children, not the
"cached" empty list — contradicting "every subsequent call returns the
cached list without recomputing it, even if the board has changed". -/
theorem get_successors_not_always_cached :
    (get_successors 'w' (get_successors 'w' rootW bEmptyB).2.1 bPawn).1 ≠
      (get_successors 'w' rootW bEmptyB).1 := by
  have h1 : (get_successors 'w' rootW bEmptyB).1 = [] := rfl
  have h2 : ((get_successors 'w' (get_successors 'w' rootW bEmptyB).2.1 bPawn).1).length = 2 := by
    decide
  intro h
  rw [h, h1] at h2
  simp at h2

/-- C4 amended: the child list returned by a `get_successors` call is
what the node then caches, and once a call has returned a NON-EMPTY
list, every subsequent call on that node returns the same list and
leaves the node unchanged, even if the board has changed in between.
(When the computed list is empty, nothing is effectively cached and a
later call recomputes from the current board — see the
counterexample.) -/
theorem get_successors_caches_nonempty (pc : Char) (s : State) (b b2 : Board) :
    ((get_successors pc s b).2.1).successors = (get_successors pc s b).1 ∧
    ((get_successors pc s b).1 ≠ [] →
      get_successors pc ((get_successors pc s b).2.1) b2 =
        ((get_successors pc s b).1, (get_successors pc s b).2.1, b2)) := by
  refine ⟨get_successors_succs pc s b, ?_⟩
  intro hne
  have hsucc := get_successors_succs pc s b
  set g := get_successors pc s b with hg
  show get_successors pc g.2.1 b2 = (g.1, g.2.1, b2)
  unfold get_successors
  rw [if_neg, hsucc]
  intro hlen
  exact hne (by rw [← hsucc]; exact List.length_eq_zero.mp hlen)

set_option maxRecDepth 8000 in
/-- Witness for C4's amended caching law at a concrete node and boards. -/
theorem get_successors_caches_nonempty_witness :
    (get_successors 'w' rootW bPawn).1 ≠ [] ∧
      get_successors 'w' ((get_successors 'w' rootW bPawn).2.1) bEmptyB =
        ((get_successors 'w' rootW bPawn).1, (get_successors 'w' rootW bPawn).2.1, bEmptyB) := by
  have hlen : ((get_successors 'w' rootW bPawn).1).length = 2 := by decide
  have hne : (get_successors 'w' rootW bPawn).1 ≠ [] := by
    intro h
    rw [h] at hlen
    simp at hlen
  exact ⟨hne, (get_successors_caches_nonempty 'w' rootW bPawn bEmptyB).2 hne⟩

/-- C3: terminal detection and terminal behavior of the search.  First
conjunct: `is_game_over` holds iff the node has an incoming move whose
undo map records a White king `'K'` replaced by a Black piece or a Black
king `'k'` replaced by a White piece; hence the root (`move = none`)
is never terminal, and a king moving off its own square (undo `'K'`
replaced by `'.'`) is not terminal.  Second conjunct: whenever
`depth = 0` or the node is terminal, `alphabeta` stores
`evaluate(state)` in the node's `val` and returns it without visiting
any successor, regardless of the remaining depth. -/
theorem is_game_over_terminal (pc : Char) (s : State) :
    (is_game_over s = true ↔ ∃ m, s.move = some m ∧ ∃ e ∈ m.changes,
        (e.undo = 'K' ∧ e.piece ∈ black_pieces) ∨ (e.undo = 'k' ∧ e.piece ∈ white_pieces)) ∧
    (∀ (d : Nat) (alpha beta : XVal) (b : Board), d = 0 ∨ is_game_over s = true →
      alphabeta pc d s alpha beta b =
        some (XVal.fin (evaluate pc s b).1,
          ((evaluate pc s b).2.1).setVal (XVal.fin (evaluate pc s b).1),
          (evaluate pc s b).2.2)) := by
  constructor
  · cases hm : s.move with
    | none => simp [is_game_over, hm]
    | some m =>
      simp only [is_game_over, hm, List.any_eq_true, Bool.or_eq_true, Bool.and_eq_true,
        beq_iff_eq, Option.some.injEq]
      constructor
      · rintro ⟨e, he, (⟨h1, h2⟩ | ⟨h1, h2⟩)⟩
        · exact ⟨m, rfl, e, he, Or.inl ⟨h1, by simpa using h2⟩⟩
        · exact ⟨m, rfl, e, he, Or.inr ⟨h1, by simpa using h2⟩⟩
      · rintro ⟨m', hm', e, he, (⟨h1, h2⟩ | ⟨h1, h2⟩)⟩
        · exact ⟨e, hm' ▸ he, Or.inl ⟨h1, by simpa using h2⟩⟩
        · exact ⟨e, hm' ▸ he, Or.inr ⟨h1, by simpa using h2⟩⟩
  · intro d alpha beta b hd
    cases d with
    | zero => rfl
    | succ n =>
      rcases hd with hd | hgo
      · cases hd
      · simp only [alphabeta]
        rw [if_pos hgo]
        rfl

/-- C9: a non-terminal node searched at positive depth whose successor
expansion is empty (no pseudo-legal moves for the side to move) gets —
the loop body never runs — the initialization value: `-∞` at a
maximizing (principal-player) node and `+∞` at a minimizing node, both
returned and stored in the node's `val`. -/
theorem alphabeta_no_moves (pc : Char) (s : State) (d : Nat) (alpha beta : XVal) (b : Board)
    (hgo : is_game_over s = false) (hempty : (get_successors pc s b).1 = []) :
    ∃ s1, alphabeta pc (d + 1) s alpha beta b =
        some (if s.player_turn then XVal.ninf else XVal.pinf, s1, b) ∧
      s1.val = (if s.player_turn then XVal.ninf else XVal.pinf) := by
  have hb := get_successors_board pc s b
  have ht := get_successors_turn pc s b
  simp only [alphabeta, hgo, Bool.false_eq_true, if_false, hempty, List.foldl_nil]
  rw [ht]
  cases hpt : s.player_turn
  · simp only [if_false, Bool.false_eq_true]
    exact ⟨_, by rw [hb], rfl⟩
  · simp only [if_true]
    exact ⟨_, by rw [hb], rfl⟩

/-- A terminal node: a white rook just captured the black king at `(0, 1)`. -/
def sTerm : State :=
  State.mk (some (Move.mk [MoveChange.mk (0, 1) 'R' 'k', MoveChange.mk (0, 0) '.' 'R']))
    (XVal.fin 0) false []

/-- The board after that capture. -/
def bTerm : Board := fun r c => if r = 0 ∧ c = 1 then 'R' else '.'

/-- Witness for C3: at depth 3 the terminal node is evaluated directly. -/
theorem is_game_over_terminal_witness :
    is_game_over sTerm = true ∧
      alphabeta 'w' 3 sTerm XVal.ninf XVal.pinf bTerm =
        some (XVal.fin (evaluate 'w' sTerm bTerm).1,
          ((evaluate 'w' sTerm bTerm).2.1).setVal (XVal.fin (evaluate 'w' sTerm bTerm).1),
          (evaluate 'w' sTerm bTerm).2.2) :=
  ⟨by decide, (is_game_over_terminal 'w' sTerm).2 3 XVal.ninf XVal.pinf bTerm (Or.inr (by decide))⟩

/-- Witness for C9: the white root on an empty board has no moves. -/
theorem alphabeta_no_moves_witness :
    is_game_over rootW = false ∧
      (∃ s1, alphabeta 'w' (1 + 1) rootW XVal.ninf XVal.pinf bEmptyB =
          some (if rootW.player_turn then XVal.ninf else XVal.pinf, s1, bEmptyB) ∧
        s1.val = (if rootW.player_turn then XVal.ninf else XVal.pinf)) :=
  ⟨by decide, alphabeta_no_moves 'w' rootW 1 XVal.ninf XVal.pinf bEmptyB (by decide) (by rfl)⟩

/-- How many own pawns one rank behind on adjacent files defend the white
pawn at `(r, c)` (0, 1 or 2), with the same bounds guards the source
uses. -/
def pawn_defenders_w (b : Board) (r c : Nat) : ℚ :=
  (if 1 ≤ r ∧ r - 1 < 8 ∧ 1 ≤ c ∧ c - 1 < 8 ∧ b (r - 1) (c - 1) = 'P' then 1 else 0) +
  (if 1 ≤ r ∧ r - 1 < 8 ∧ c + 1 < 8 ∧ b (r - 1) (c + 1) = 'P' then 1 else 0)

/-- Black analogue of `pawn_defenders_w`. -/
def pawn_defenders_b (b : Board) (r c : Nat) : ℚ :=
  (if r + 1 < 8 ∧ 1 ≤ c ∧ c - 1 < 8 ∧ b (r + 1) (c - 1) = 'p' then 1 else 0) +
  (if r + 1 < 8 ∧ c + 1 < 8 ∧ b (r + 1) (c + 1) = 'p' then 1 else 0)

/-- Total number of (defended pawn, defender) pairs over the principal
player's pawns — a pawn defended from both sides contributes 2. -/
def pawn_structure_pairs (pc : Char) (b : Board) : ℚ :=
  if pc = 'w' then
    Finset.sum (Finset.range 8) (fun r => Finset.sum (Finset.range 8) (fun c =>
      if b r c = 'P' then pawn_defenders_w b r c else 0))
  else
    Finset.sum (Finset.range 8) (fun r => Finset.sum (Finset.range 8) (fun c =>
      if b r c = 'p' then pawn_defenders_b b r c else 0))

/-- The number the claim describes: how many of the principal player's
pawns are diagonally defended by at least one own pawn one rank behind
(each defended pawn counted once). -/
def defended_pawn_count (pc : Char) (b : Board) : Nat :=
  if pc = 'w' then
    (Finset.filter (fun q : Nat × Nat =>
        b q.1 q.2 = 'P' ∧
          ((1 ≤ q.1 ∧ q.1 - 1 < 8 ∧ 1 ≤ q.2 ∧ q.2 - 1 < 8 ∧ b (q.1 - 1) (q.2 - 1) = 'P') ∨
           (1 ≤ q.1 ∧ q.1 - 1 < 8 ∧ q.2 + 1 < 8 ∧ b (q.1 - 1) (q.2 + 1) = 'P')))
      (Finset.range 8 ×ˢ Finset.range 8)).card
  else
    (Finset.filter (fun q : Nat × Nat =>
        b q.1 q.2 = 'p' ∧
          ((q.1 + 1 < 8 ∧ 1 ≤ q.2 ∧ q.2 - 1 < 8 ∧ b (q.1 + 1) (q.2 - 1) = 'p') ∨
           (q.1 + 1 < 8 ∧ q.2 + 1 < 8 ∧ b (q.1 + 1) (q.2 + 1) = 'p')))
      (Finset.range 8 ×ˢ Finset.range 8)).card

/-- A white pawn at `(2, 3)` defended by own pawns at `(1, 2)` and `(1, 4)`. -/
def bPP : Board := fun r c =>
  if (r = 2 ∧ c = 3) ∨ (r = 1 ∧ c = 2) ∨ (r = 1 ∧ c = 4) then 'P' else '.'

lemma foldl_sum_body (g : Nat → ℚ) (body : ℚ → Nat → ℚ)
    (hbody : ∀ a x, body a x = a + g x) (n : Nat) :
    ∀ a, (List.range n).foldl body a = a + Finset.sum (Finset.range n) g := by
  induction n with
  | zero => intro a; simp
  | succ k ih =>
    intro a
    rw [List.range_succ, List.foldl_append, ih, List.foldl_cons, List.foldl_nil, hbody,
      Finset.sum_range_succ, add_assoc]

lemma pawn_structure_pairs_spec (pc : Char) (s : State) (b : Board) :
    pawn_structure pc s b = if s.player_turn then pawn_structure_pairs pc b else 0 := by
  cases hpt : s.player_turn
  · simp [pawn_structure, hpt]
  · simp only [pawn_structure, hpt, if_true]
    by_cases hpc : pc = 'w'
    · rw [if_pos hpc]
      simp only [pawn_structure_pairs, if_pos hpc]
      have hinner : ∀ (r : Nat) (a : ℚ),
          (List.range 8).foldl (fun pts c =>
            if b r c = 'P' then
              if 1 ≤ r ∧ r - 1 < 8 ∧ c + 1 < 8 ∧ b (r - 1) (c + 1) = 'P' then
                (if 1 ≤ r ∧ r - 1 < 8 ∧ 1 ≤ c ∧ c - 1 < 8 ∧ b (r - 1) (c - 1) = 'P' then pts + 1 else pts) + 1
              else
                (if 1 ≤ r ∧ r - 1 < 8 ∧ 1 ≤ c ∧ c - 1 < 8 ∧ b (r - 1) (c - 1) = 'P' then pts + 1 else pts)
            else pts) a =
          a + Finset.sum (Finset.range 8)
            (fun c => if b r c = 'P' then pawn_defenders_w b r c else 0) := by
        intro r
        apply foldl_sum_body
        intro a c
        unfold pawn_defenders_w
        split_ifs <;> ring
      rw [foldl_sum_body _ _ (fun a r => hinner r a) 8, zero_add]
    · rw [if_neg hpc]
      simp only [pawn_structure_pairs, if_neg hpc]
      have hinner : ∀ (r : Nat) (a : ℚ),
          (List.range 8).foldl (fun pts c =>
            if b r c = 'p' then
              if r + 1 < 8 ∧ c + 1 < 8 ∧ b (r + 1) (c + 1) = 'p' then
                (if r + 1 < 8 ∧ 1 ≤ c ∧ c - 1 < 8 ∧ b (r + 1) (c - 1) = 'p' then pts + 1 else pts) + 1
              else
                (if r + 1 < 8 ∧ 1 ≤ c ∧ c - 1 < 8 ∧ b (r + 1) (c - 1) = 'p' then pts + 1 else pts)
            else pts) a =
          a + Finset.sum (Finset.range 8)
            (fun c => if b r c = 'p' then pawn_defenders_b b r c else 0) := by
        intro r
        apply foldl_sum_body
        intro a c
        unfold pawn_defenders_b
        split_ifs <;> ring
      rw [foldl_sum_body _ _ (fun a r => hinner r a) 8, zero_add]

/-- A root-like principal-player node used with `bPP`. -/
def sPP : State := State.mk none (XVal.fin 0) true []

set_option maxRecDepth 8000 in
/-- C7 counterexample: on `bPP` the pawn at `(2, 3)` is the only defended
white pawn, so the claimed "how many pawns are diagonally defended"
reading gives 1, but `pawn_structure` (at a principal-player ply)
returns 2 — it counts one point per (pawn, defender) pair. -/
theorem pawn_structure_not_pawn_count :
    pawn_structure 'w' sPP bPP ≠ ((defended_pawn_count 'w' bPP : Nat) : ℚ) := by
  have hcount : defended_pawn_count 'w' bPP = 1 := by decide
  have hps : pawn_structure 'w' sPP bPP = 2 := by
    rw [pawn_structure_pairs_spec]
    simp only [sPP, if_true]
    simp only [pawn_structure_pairs, if_pos rfl]
    rw [show (Finset.range 8) = ({0, 1, 2, 3, 4, 5, 6, 7} : Finset Nat) by decide]
    simp [Finset.sum_insert, pawn_defenders_w, bPP]
    norm_num
  rw [hps, hcount]
  norm_num

/-- C7 (amended): `pawn_structure` returns, at nodes where the
side-to-move flag is true (a principal-player ply), the total number of
(pawn, defender) pairs — each of the principal player's pawns
contributes one point per own pawn one rank behind on an adjacent file,
so a pawn defended from both sides counts twice — and returns 0
whenever the flag is false. -/
theorem pawn_structure_eq_pairs (pc : Char) (s : State) (b : Board) :
    pawn_structure pc s b = if s.player_turn then pawn_structure_pairs pc b else 0 :=
  pawn_structure_pairs_spec pc s b

/-- A node is consistent with board `b` (the shared board is "in the
position corresponding to the node") when every cached child carries a
move whose recorded undo values are read from `b`, and is recursively
consistent with the board after that move.  A node without cached
children is consistent with any board; `get_successors` only ever
creates children in this relationship with the board it reads. -/
inductive Consistent (pc : Char) : State → Board → Prop where
  | intro (s : State) (b : Board)
      (hsome : ∀ c ∈ s.successors, c.move.isSome = true)
      (hfits : ∀ c ∈ s.successors, ∀ m, c.move = some m → MoveFits m b)
      (hrec : ∀ c ∈ s.successors, ∀ m, c.move = some m → Consistent pc c (m.make b)) :
      Consistent pc s b

/-- The per-child consistency requirement. -/
def ChildOK (pc : Char) (b : Board) (c : State) : Prop :=
  ∃ m, c.move = some m ∧ MoveFits m b ∧ Consistent pc c (m.make b)

lemma Consistent.children {pc : Char} {s : State} {b : Board} (h : Consistent pc s b) :
    ∀ c ∈ s.successors, ChildOK pc b c := by
  cases h with
  | intro s b hsome hfits hrec =>
    intro c hc
    obtain ⟨m, hm⟩ := Option.isSome_iff_exists.mp (hsome c hc)
    exact ⟨m, hm, hfits c hc m hm, hrec c hc m hm⟩

lemma Consistent.of_children {pc : Char} {s : State} {b : Board}
    (h : ∀ c ∈ s.successors, ChildOK pc b c) : Consistent pc s b := by
  refine Consistent.intro s b ?_ ?_ ?_
  · intro c hc
    obtain ⟨m, hm, _, _⟩ := h c hc
    rw [hm]
    rfl
  · intro c hc m hm
    obtain ⟨m0, hm0, hf, _⟩ := h c hc
    rw [hm] at hm0
    injection hm0 with hm0
    rw [← hm0] at hf
    exact hf
  · intro c hc m hm
    obtain ⟨m0, hm0, _, hc0⟩ := h c hc
    rw [hm] at hm0
    injection hm0 with hm0
    rw [← hm0] at hc0
    exact hc0

lemma Consistent.setVal {pc : Char} {s : State} {b : Board} (h : Consistent pc s b) (v : XVal) :
    Consistent pc (s.setVal v) b :=
  Consistent.of_children h.children

/-- Children handed out by `get_successors` are consistent with the
board it read, and the updated node stays consistent with it. -/
lemma get_successors_childOK (pc : Char) (s : State) (b : Board) (h : Consistent pc s b) :
    (∀ c ∈ (get_successors pc s b).1, ChildOK pc b c) ∧
      Consistent pc (get_successors pc s b).2.1 b := by
  unfold get_successors
  split
  · have hall : ∀ c ∈ (possible_moves b (if s.player_turn then pc else opponent_color pc)).map
        (fun mv => State.mk (some mv) (XVal.fin 0) (!s.player_turn) []), ChildOK pc b c := by
      intro c hc
      simp only [List.mem_map] at hc
      obtain ⟨mv, hmv, rfl⟩ := hc
      exact ⟨mv, rfl, (possible_moves_shape b _ mv hmv).fits,
        Consistent.of_children (fun c hc => absurd hc (List.not_mem_nil c))⟩
    exact ⟨hall, Consistent.of_children hall⟩
  · exact ⟨h.children, h⟩

lemma evaluate_state (pc : Char) (s : State) (b : Board) :
    (evaluate pc s b).2.1 = (get_successors pc s b).2.1 := by
  simp only [evaluate, mobility]

/-- The terminal exit preserves the board and node consistency. -/
lemma terminal_eval_consistent (pc : Char) (s : State) (b : Board) (h : Consistent pc s b) :
    ∃ v s1, terminal_eval pc s b = some (v, s1, b) ∧
      s1.move = s.move ∧ s1.player_turn = s.player_turn ∧ Consistent pc s1 b := by
  have hb := evaluate_board_id pc s b
  have hst := evaluate_state pc s b
  have hgs := get_successors_childOK pc s b h
  refine ⟨XVal.fin (evaluate pc s b).1,
    ((evaluate pc s b).2.1).setVal (XVal.fin (evaluate pc s b).1), ?_, ?_, ?_, ?_⟩
  · simp only [terminal_eval]
    rw [hb]
  · show (evaluate pc s b).2.1.move = s.move
    rw [hst]
    exact get_successors_move pc s b
  · show (evaluate pc s b).2.1.player_turn = s.player_turn
    rw [hst]
    exact get_successors_turn pc s b
  · exact Consistent.setVal (hst ▸ hgs.2) _

/-- The maximizing loop keeps the board fixed and keeps every updated
child consistent, provided the recursive call does. -/
lemma ab_loop_max (pc : Char) (f : State → XVal → XVal → Board → Option (XVal × State × Board))
    (beta : XVal) (b : Board)
    (hrec : ∀ s a bt b1, Consistent pc s b1 →
      ∃ v s1, f s a bt b1 = some (v, s1, b1) ∧
        s1.move = s.move ∧ s1.player_turn = s.player_turn ∧ Consistent pc s1 b1) :
    ∀ (cs : List State) (val a : XVal) (done : List State) (stop : Bool),
      (∀ c ∈ cs, ChildOK pc b c) → (∀ c ∈ done, ChildOK pc b c) →
      ∃ val1 a1 done1 stop1,
        cs.foldl (ab_step_max f beta) (some (val, a, done, b, stop)) =
          some (val1, a1, done1, b, stop1) ∧
        ∀ c ∈ done1, ChildOK pc b c := by
  intro cs
  induction cs with
  | nil =>
    intro val a done stop _ hdone
    exact ⟨val, a, done, stop, rfl, hdone⟩
  | cons ns cs ih =>
    intro val a done stop hcs hdone
    rw [List.foldl_cons]
    have hns := hcs ns (List.mem_cons_self _ _)
    have htail : ∀ c ∈ cs, ChildOK pc b c :=
      fun c hc => hcs c (List.mem_cons_of_mem _ hc)
    cases stop with
    | true =>
      have hstep : ab_step_max f beta (some (val, a, done, b, true)) ns =
          some (val, a, done ++ [ns], b, true) := by
        simp [ab_step_max]
      rw [hstep]
      refine ih val a (done ++ [ns]) true htail ?_
      intro c hc
      rcases List.mem_append.mp hc with hc | hc
      · exact hdone c hc
      · rw [List.mem_singleton.mp hc]
        exact hns
    | false =>
      obtain ⟨mv, hmv, hfits, hcons⟩ := hns
      obtain ⟨v, ns1, heq, hm1, ht1, hc1⟩ := hrec ns a beta (mv.make b) hcons
      have hstep : ab_step_max f beta (some (val, a, done, b, false)) ns =
          some (XVal.pymax val v, XVal.pymax a (XVal.pymax val v), done ++ [ns1],
            mv.unmake (mv.make b), XVal.le beta (XVal.pymax a (XVal.pymax val v))) := by
        simp only [ab_step_max, if_neg (by simp : ¬(false = true)), hmv, heq]
      rw [hstep, Move.unmake_make mv b hfits]
      refine ih _ _ (done ++ [ns1]) _ htail ?_
      intro c hc
      rcases List.mem_append.mp hc with hc | hc
      · exact hdone c hc
      · rw [List.mem_singleton.mp hc]
        exact ⟨mv, hm1 ▸ hmv, hfits, hc1⟩

/-- Mirror of `ab_loop_max` for the minimizing loop. -/
lemma ab_loop_min (pc : Char) (f : State → XVal → XVal → Board → Option (XVal × State × Board))
    (alpha : XVal) (b : Board)
    (hrec : ∀ s a bt b1, Consistent pc s b1 →
      ∃ v s1, f s a bt b1 = some (v, s1, b1) ∧
        s1.move = s.move ∧ s1.player_turn = s.player_turn ∧ Consistent pc s1 b1) :
    ∀ (cs : List State) (val bt : XVal) (done : List State) (stop : Bool),
      (∀ c ∈ cs, ChildOK pc b c) → (∀ c ∈ done, ChildOK pc b c) →
      ∃ val1 bt1 done1 stop1,
        cs.foldl (ab_step_min f alpha) (some (val, bt, done, b, stop)) =
          some (val1, bt1, done1, b, stop1) ∧
        ∀ c ∈ done1, ChildOK pc b c := by
  intro cs
  induction cs with
  | nil =>
    intro val bt done stop _ hdone
    exact ⟨val, bt, done, stop, rfl, hdone⟩
  | cons ns cs ih =>
    intro val bt done stop hcs hdone
    rw [List.foldl_cons]
    have hns := hcs ns (List.mem_cons_self _ _)
    have htail : ∀ c ∈ cs, ChildOK pc b c :=
      fun c hc => hcs c (List.mem_cons_of_mem _ hc)
    cases stop with
    | true =>
      have hstep : ab_step_min f alpha (some (val, bt, done, b, true)) ns =
          some (val, bt, done ++ [ns], b, true) := by
        simp [ab_step_min]
      rw [hstep]
      refine ih val bt (done ++ [ns]) true htail ?_
      intro c hc
      rcases List.mem_append.mp hc with hc | hc
      · exact hdone c hc
      · rw [List.mem_singleton.mp hc]
        exact hns
    | false =>
      obtain ⟨mv, hmv, hfits, hcons⟩ := hns
      obtain ⟨v, ns1, heq, hm1, ht1, hc1⟩ := hrec ns alpha bt (mv.make b) hcons
      have hstep : ab_step_min f alpha (some (val, bt, done, b, false)) ns =
          some (XVal.pymin val v, XVal.pymin bt (XVal.pymin val v), done ++ [ns1],
            mv.unmake (mv.make b), XVal.le (XVal.pymin bt (XVal.pymin val v)) alpha) := by
        simp only [ab_step_min, if_neg (by simp : ¬(false = true)), hmv, heq]
      rw [hstep, Move.unmake_make mv b hfits]
      refine ih _ _ (done ++ [ns1]) _ htail ?_
      intro c hc
      rcases List.mem_append.mp hc with hc | hc
      · exact hdone c hc
      · rw [List.mem_singleton.mp hc]
        exact ⟨mv, hm1 ▸ hmv, hfits, hc1⟩

/-- Core induction: on a consistent node `alphabeta` succeeds, returns
the board it was given, preserves the node's identity fields and leaves
the node consistent with that same board. -/
lemma alphabeta_consistent (pc : Char) :
    ∀ (d : Nat) (s : State) (alpha beta : XVal) (b : Board), Consistent pc s b →
      ∃ v s1, alphabeta pc d s alpha beta b = some (v, s1, b) ∧
        s1.move = s.move ∧ s1.player_turn = s.player_turn ∧ Consistent pc s1 b := by
  intro d
  induction d with
  | zero =>
    intro s alpha beta b h
    exact terminal_eval_consistent pc s b h
  | succ d ihd =>
    intro s alpha beta b h
    by_cases hgo : is_game_over s = true
    · obtain ⟨v, s1, heq, hm, ht, hc⟩ := terminal_eval_consistent pc s b h
      refine ⟨v, s1, ?_, hm, ht, hc⟩
      simp only [alphabeta]
      rw [if_pos hgo]
      exact heq
    · have hgs := get_successors_childOK pc s b h
      have hsucc := get_successors_succs pc s b
      have hboard := get_successors_board pc s b
      have hmove := get_successors_move pc s b
      have hturn := get_successors_turn pc s b
      simp only [alphabeta]
      rw [if_neg hgo]
      cases hpt : (get_successors pc s b).2.1.player_turn
      · simp only [Bool.false_eq_true, if_false]
        obtain ⟨val1, bt1, done1, stop1, hfold, hok⟩ :=
          ab_loop_min pc (alphabeta pc d) alpha b ihd
            ((get_successors pc s b).1) XVal.pinf beta [] false hgs.1
            (fun c hc => absurd hc (List.not_mem_nil c))
        rw [hboard, hfold]
        refine ⟨val1, _, rfl, ?_, ?_, ?_⟩
        · show (get_successors pc s b).2.1.move = s.move
          exact hmove
        · show false = s.player_turn
          rw [← hpt]
          exact hturn
        · exact Consistent.of_children hok
      · simp only [if_true]
        obtain ⟨val1, a1, done1, stop1, hfold, hok⟩ :=
          ab_loop_max pc (alphabeta pc d) beta b ihd
            ((get_successors pc s b).1) XVal.ninf alpha [] false hgs.1
            (fun c hc => absurd hc (List.not_mem_nil c))
        rw [hboard, hfold]
        refine ⟨val1, _, rfl, ?_, ?_, ?_⟩
        · show (get_successors pc s b).2.1.move = s.move
          exact hmove
        · show true = s.player_turn
          rw [← hpt]
          exact hturn
        · exact Consistent.of_children hok

/-- C1: on a node whose cached tree matches the shared board (the
`Consistent` precondition — trivially true of a fresh root and, as the
conclusion shows, re-established by every search round), `alphabeta`
returns with the board cell-for-cell equal to the board it was called
with, at every depth `d`; and because consistency is preserved, every
later iterative-deepening round `d2` on the same root again returns the
unchanged board. -/
theorem alphabeta_preserves_board (pc : Char) (d : Nat) (s : State) (alpha beta : XVal)
    (b : Board) (h : Consistent pc s b) :
    ∃ v s1, alphabeta pc d s alpha beta b = some (v, s1, b) ∧ Consistent pc s1 b ∧
      ∀ (d2 : Nat) (alpha2 beta2 : XVal), ∃ v2 s2,
        alphabeta pc d2 s1 alpha2 beta2 b = some (v2, s2, b) := by
  obtain ⟨v, s1, heq, _, _, hc1⟩ := alphabeta_consistent pc d s alpha beta b h
  refine ⟨v, s1, heq, hc1, ?_⟩
  intro d2 alpha2 beta2
  obtain ⟨v2, s2, heq2, _, _, _⟩ := alphabeta_consistent pc d2 s1 alpha2 beta2 b hc1
  exact ⟨v2, s2, heq2⟩

/-- Witness for C1: the fresh root on the rook board is consistent, and
the depth-2 search hands the board back. -/
theorem alphabeta_preserves_board_witness :
    Consistent 'w' rootW bRook ∧
      (∃ v s1, alphabeta 'w' 2 rootW XVal.ninf XVal.pinf bRook = some (v, s1, bRook) ∧
        Consistent 'w' s1 bRook ∧
        ∀ (d2 : Nat) (alpha2 beta2 : XVal), ∃ v2 s2,
          alphabeta 'w' d2 s1 alpha2 beta2 bRook = some (v2, s2, bRook)) := by
  have hcons : Consistent 'w' rootW bRook :=
    Consistent.of_children (fun c hc => absurd hc (List.not_mem_nil c))
  exact ⟨hcons, alphabeta_preserves_board 'w' 2 rootW XVal.ninf XVal.pinf bRook hcons⟩
